import Mathlib

/-!
Verification development for `battle_sim.py`, a turn-based two-army battle
simulator.  The Python module is shallowly embedded below: armies are
insertion-ordered association lists (Python dicts), machine integers are
`Int`, probabilities are `Rat`, and the numpy random generator — an external
collaborator of the core — is modelled as an explicit state threaded through
every draw.  Fallible construction (`make_army`) returns `Except`.
-/

/-- Unit definition `UnitDef`: static per-type stats; `attack` and `defense`
are integer percentages (0-100). -/
structure UnitDef where
  gold : Int := 0
  food : Rat := 0
  wood : Int := 0
  iron : Int := 0
  attack : Int := 0
  defense : Int := 0
deriving DecidableEq

/-- The module-global catalog `default_units` (insertion order preserved). -/
def default_units : List (String × UnitDef) :=
  [ ("Peasants", { food := 1/10, attack := 5, defense := 10 }),
    ("Spearmen", { gold := 1, food := 1/10, attack := 10, defense := 25 }),
    ("Swordsmen", { gold := 2, food := 1/10, attack := 30, defense := 40 }),
    ("Archers", { gold := 3, food := 1/10, wood := 1, attack := 25, defense := 15 }),
    ("Crossbowmen", { gold := 2, food := 1/10, wood := 1, attack := 20, defense := 15 }),
    ("Horsemen", { gold := 5, food := 1/5, attack := 30, defense := 30 }),
    ("Knights", { gold := 10, food := 1/5, iron := 1, attack := 60, defense := 60 }),
    ("Mounted Knights", { gold := 15, food := 2/5, iron := 1, attack := 65, defense := 60 }),
    ("Royal Guard", { gold := 20, food := 3/10, iron := 1, attack := 80, defense := 80 }) ]

/-- An army is a Python dict `{unit_type: count}`: an insertion-ordered
association list.  Keys are unique and counts positive for well-formed
armies (`armyWF` below). -/
abbrev Army := List (String × Int)

abbrev Catalog := List (String × UnitDef)

/-- First-match association-list lookup (Python dict indexing / `.get`). -/
def findA {α : Type} : List (String × α) → String → Option α
  | [], _ => none
  | (k, v) :: rest, t => if k = t then some v else findA rest t

/-- The keys of an association list, in order. -/
def keysOf {α : Type} (l : List (String × α)) : List String := l.map Prod.fst

/-- Python `army.get(unit_type, 0)`. -/
def countOf (army : Army) (t : String) : Int := (findA army t).getD 0

/-- Python dict assignment `d[k] = v`: overwrite the existing entry in place
when the key is present (keeping its position), else append at the end. -/
def dinsert {α : Type} : List (String × α) → String → α → List (String × α)
  | [], t, v => [(t, v)]
  | (k, w) :: rest, t, v => if k = t then (t, v) :: rest else (k, w) :: dinsert rest t v

/-- Python `del d[k]`. -/
def removeKey {α : Type} : List (String × α) → String → List (String × α)
  | [], _ => []
  | (k, v) :: rest, t => if k = t then rest else (k, v) :: removeKey rest t

/-- Loop body of `make_army`: iterate the spec entries in order, skipping
non-positive counts, failing on a name outside the catalog, otherwise
adding the entry to the army built so far. -/
def make_army_go (unit_defs : Catalog) (army : Army) :
    List (String × Int) → Except String Army
  | [] => Except.ok army
  | (unit_type, count) :: rest =>
    if count ≤ 0 then make_army_go unit_defs army rest
    else if (findA unit_defs unit_type).isNone then
      Except.error ("Unknown unit type: " ++ unit_type)
    else make_army_go unit_defs (dinsert army unit_type count) rest

/-- `make_army(spec, unit_defs)` (the source defaults `unit_defs` to
`default_units`).  Raising `ValueError` is embedded as `Except.error`. -/
def make_army (spec : List (String × Int)) (unit_defs : Catalog) : Except String Army :=
  make_army_go unit_defs [] spec

/-- `army_size`: `sum(army.values())`. -/
def army_size (army : Army) : Int := (army.map Prod.snd).sum

/-- `alive_types`: the unit types with positive count, in order. -/
def alive_types (army : Army) : List String :=
  (army.filter (fun p => p.2 > 0)).map Prod.fst

/-- Modelled from the spec: the injected randomness source
(`np.random.Generator`), an external collaborator of the core.  The state is
a stream position advanced one step per raw draw by a congruential map. -/
abbrev RngState := Nat

/-- One raw step of the modelled random stream. -/
def rngNext (s : RngState) : Nat × RngState :=
  let s' := (s * 1103515245 + 12345) % 4294967296
  (s', s')

/-- Modelled from the spec: `rng.binomial(n, p)` — one sample in `[0, n]`
depending on the stream state and on `p`; success probability 1 draws `n`
deterministically. -/
def rawBinomial (s : RngState) (n : Int) (p : Rat) : Int × RngState :=
  let (r, s') := rngNext s
  (if 1 ≤ p then n else (((r + p.num.natAbs + p.den) % (n.toNat + 1) : Nat) : Int), s')

/-- Modelled from the spec: `rng.multinomial(n, probs)` — a vector of
non-negative samples, one per entry of `probs`, summing exactly to `n`
(the multinomial draw's exactness). -/
def rawMultinomial (s : RngState) (n : Int) : List Rat → List Int × RngState
  | [] => ([], s)
  | [_] => ([n], s)
  | p :: q :: rest =>
    let r := rawBinomial s n p
    let rs := rawMultinomial r.2 (n - r.1) (q :: rest)
    (r.1 :: rs.1, rs.2)

/-- `_binomial_rng`: short-circuit to 0 without consuming randomness when
`n ≤ 0` or `p ≤ 0`; otherwise clamp `p` to `[0, 1]` and draw. -/
def binomial_rng (s : RngState) (n : Int) (p : Rat) : Int × RngState :=
  if n ≤ 0 ∨ p ≤ 0 then (0, s)
  else rawBinomial s n (min (max p 0) 1)

/-- `_multinomial_rng`: zeros without consuming randomness when `n ≤ 0` or
the weights have non-positive total; otherwise normalize defensively and
draw one multinomial sample. -/
def multinomial_rng (s : RngState) (n : Int) (probs : List Rat) : List Int × RngState :=
  if n ≤ 0 then (probs.map fun _ => 0, s)
  else
    let total := probs.sum
    if total ≤ 0 then (probs.map fun _ => 0, s)
    else rawMultinomial s n (probs.map fun p => p / total)

/-- Catalog lookup `defs[unit_type]` (the source raises `KeyError` outside the
catalog; every use below stays inside it). -/
def unitDefOf (defs : Catalog) (t : String) : UnitDef := (findA defs t).getD {}

/-- `_attacks_to_hits`: per unit type with positive count, one binomial draw
with the type's attack percentage, summed.  Note the source reads the
module-global `default_units`, not a passed-in catalog. -/
def attacks_to_hits (attacker : Army) (s : RngState) : Int × RngState :=
  attacker.foldl
    (fun (acc : Int × RngState) (p : String × Int) =>
      if p.2 ≤ 0 then acc
      else
        let atk_pct : Rat := (unitDefOf default_units p.1).attack / 100
        let (h, s') := binomial_rng acc.2 p.2 atk_pct
        (acc.1 + h, s'))
    ((0 : Int), s)

/-- `_distribute_hits_across_defender`: weights are the live counts; the dict
comprehension keeps only categories with a positive draw. -/
def distribute_hits_across_defender (defender : Army) (total_hits : Int) (s : RngState) :
    List (String × Int) × RngState :=
  let unit_types := alive_types defender
  if unit_types = [] ∨ total_hits ≤ 0 then ([], s)
  else
    let counts : List Rat := unit_types.map fun t => ((countOf defender t : Int) : Rat)
    let r := multinomial_rng s total_hits counts
    ((unit_types.zip r.1).filter (fun p => p.2 > 0), r.2)

/-- `_defense_resolution`: per assigned category, one binomial draw with
penetration probability `max 0 (1 - defense)`; zero penetrations are
omitted.  Reads the module-global `default_units`. -/
def defense_resolution (assigned_hits : List (String × Int)) (s : RngState) :
    List (String × Int) × RngState :=
  assigned_hits.foldl
    (fun (acc : List (String × Int) × RngState) (p : String × Int) =>
      if p.2 ≤ 0 then acc
      else
        let def_pct : Rat := (unitDefOf default_units p.1).defense / 100
        let (pen, s') := binomial_rng acc.2 p.2 (max 0 (1 - def_pct))
        (if pen > 0 then acc.1 ++ [(p.1, pen)] else acc.1, s'))
    (([] : List (String × Int)), s)

/-- The army update of one `_apply_kills` iteration (source lines 152-157):
clamp the kill count to the available count, write the decreased count back
(`army[unit_type] = available - actual_kill_count`) and delete the key when
the count reaches zero. -/
def kill_step (army : Army) (unit_type : String) (kill_count : Int) : Army :=
  let available := countOf army unit_type
  let actual := min kill_count available
  let army1 := dinsert army unit_type (available - actual)
  if available - actual ≤ 0 then removeKey army1 unit_type else army1

/-- `_apply_kills` proper: iterate the kills dict in order, skipping
non-positive kill counts and exhausted or absent categories, recording the
clamped actual kill count and updating the army with `kill_step`. -/
def apply_kills (army : Army) : List (String × Int) → Army × List (String × Int)
  | [] => (army, [])
  | (unit_type, kill_count) :: rest =>
    if kill_count ≤ 0 then apply_kills army rest
    else
      let available := countOf army unit_type
      if available ≤ 0 then apply_kills army rest
      else
        let r := apply_kills (kill_step army unit_type kill_count) rest
        (r.1, (unit_type, min kill_count available) :: r.2)

/-- One side of a round report (the `"A"` / `"B"` sub-dicts of the source's
`round_report`): `hits`, `assigned_hits`, `kills_after_defense` and `kills`
describe the damage this side dealt; `size_end` and `army` are this side's
own post-round state. -/
structure SideRecord where
  size_end : Int
  hits : Int
  assigned_hits : List (String × Int)
  kills_after_defense : List (String × Int)
  kills : List (String × Int)
  army : Army
deriving DecidableEq

/-- The per-round report appended to the battle's round log. -/
structure RoundRecord where
  round : Nat
  sideA : SideRecord
  sideB : SideRecord
deriving DecidableEq

/-- The final summary dict of `simulate_battle`. -/
structure BattleSummary where
  winner : String
  rounds : Nat
  final_A : Army
  final_B : Army
  final_size_A : Int
  final_size_B : Int
deriving DecidableEq

/-- The full return value of `simulate_battle`. -/
structure BattleReport where
  rounds : List RoundRecord
  summary : BattleSummary
deriving DecidableEq

/-- The body of the while loop (source lines 184-220): A's three attack
phases, B's three attack phases — both from the pre-round armies — then both
kill sets applied, then the round record assembled. -/
def roundStep (A B : Army) (s : RngState) (round_idx : Nat) :
    Army × Army × RoundRecord × RngState :=
  let (a_hits, s1) := attacks_to_hits A s
  let (a_assign, s2) := distribute_hits_across_defender B a_hits s1
  let (a_kills, s3) := defense_resolution a_assign s2
  let (b_hits, s4) := attacks_to_hits B s3
  let (b_assign, s5) := distribute_hits_across_defender A b_hits s4
  let (b_kills, s6) := defense_resolution b_assign s5
  let (B1, a_deaths) := apply_kills B a_kills
  let (A1, b_deaths) := apply_kills A b_kills
  (A1, B1,
    { round := round_idx,
      sideA := { size_end := army_size A1, hits := a_hits, assigned_hits := a_assign,
                 kills_after_defense := a_kills, kills := a_deaths, army := A1 },
      sideB := { size_end := army_size B1, hits := b_hits, assigned_hits := b_assign,
                 kills_after_defense := b_kills, kills := b_deaths, army := B1 } },
    s6)

/-- The while loop of `simulate_battle`, with explicit fuel.  The guard
`round_idx < max_rounds` increments `round_idx` every iteration, so fuel
`max_rounds` (what `simulate_battle` passes, starting from index 0) never
runs out before the guard fails. -/
def battle_loop : Nat → Army → Army → RngState → Nat → Nat → List RoundRecord →
    Army × Army × Nat × List RoundRecord
  | 0, A, B, _, round_idx, _, rounds => (A, B, round_idx, rounds)
  | fuel + 1, A, B, s, round_idx, max_rounds, rounds =>
    if army_size A > 0 ∧ army_size B > 0 ∧ round_idx < max_rounds then
      let r := roundStep A B s (round_idx + 1)
      battle_loop fuel r.1 r.2.1 r.2.2.2 (round_idx + 1) max_rounds (rounds ++ [r.2.2.1])
    else (A, B, round_idx, rounds)

/-- Winner classification (source lines 222-228). -/
def classify_winner (A B : Army) : String :=
  if army_size A > 0 ∧ army_size B = 0 then "A"
  else if army_size B > 0 ∧ army_size A = 0 then "B"
  else "Draw/MaxRounds"

/-- Modelled from the spec: `np.random.default_rng(seed)`.  With a seed the
initial stream state depends only on the seed; with `seed = none` numpy
seeds from OS entropy, modelled as the explicit `entropy` argument. -/
def default_rng (seed : Option Nat) (entropy : Nat) : RngState :=
  match seed with
  | some s => s
  | none => entropy

/-- The summary built at source lines 230-236. -/
def battle_summary (A1 B1 : Army) (round_idx : Nat) : BattleSummary :=
  { winner := classify_winner A1 B1,
    rounds := round_idx,
    final_A := A1, final_B := B1,
    final_size_A := army_size A1, final_size_B := army_size B1 }

/-- `simulate_battle(army_a, army_b, unit_defs, seed, max_rounds)`.  The
source's defaults are `unit_defs = default_units`, `seed = None`,
`max_rounds = 100000`.  Note that the source accepts `unit_defs` but never
reads it: the combat helpers read the module-global `default_units`.  The
source copies both input armies (`dict(army_a)`) before the loop. -/
def simulate_battle (army_a army_b : Army) (unit_defs : Catalog)
    (seed : Option Nat) (max_rounds : Nat) (entropy : Nat) : BattleReport :=
  let s := default_rng seed entropy
  let A : Army := army_a
  let B : Army := army_b
  let r := battle_loop max_rounds A B s 0 max_rounds []
  { rounds := r.2.2.2, summary := battle_summary r.1 r.2.1 r.2.2.1 }

/-- A heap of army objects: Python-level mutation of army dicts made
explicit, for stating that `simulate_battle` leaves its callers' armies
untouched.  Cells are addressed by index. -/
abbrev Store := List Army

/-- The while loop acting on the heap: the private copies live in the cells
`ca` and `cb`, which every iteration reads and writes back. -/
def battle_loop_ref : Nat → Store → Nat → Nat → RngState → Nat → Nat →
    List RoundRecord → Store × Nat × List RoundRecord
  | 0, store, _, _, _, round_idx, _, rounds => (store, round_idx, rounds)
  | fuel + 1, store, ca, cb, s, round_idx, max_rounds, rounds =>
    let A := store.getD ca []
    let B := store.getD cb []
    if army_size A > 0 ∧ army_size B > 0 ∧ round_idx < max_rounds then
      let r := roundStep A B s (round_idx + 1)
      battle_loop_ref fuel ((store.set ca r.1).set cb r.2.1) ca cb r.2.2.2 (round_idx + 1)
        max_rounds (rounds ++ [r.2.2.1])
    else (store, round_idx, rounds)

/-- `simulate_battle` at the heap level: the caller's armies are the cells
`ra` and `rb`; `dict(army_a)` / `dict(army_b)` allocate the fresh private
cells `ca` and `cb`, and the loop mutates only those. -/
def simulate_battle_ref (store : Store) (ra rb : Nat) (unit_defs : Catalog)
    (seed : Option Nat) (max_rounds : Nat) (entropy : Nat) : Store × BattleReport :=
  let s := default_rng seed entropy
  let A : Army := store.getD ra []
  let B : Army := store.getD rb []
  let ca := store.length
  let cb := store.length + 1
  let store1 := store ++ [A, B]
  let r := battle_loop_ref max_rounds store1 ca cb s 0 max_rounds []
  let A1 := r.1.getD ca []
  let B1 := r.1.getD cb []
  (r.1, { rounds := r.2.2, summary := battle_summary A1 B1 r.2.1 })

/-- Well-formed army: unique unit-type keys (a Python dict) and strictly
positive counts (the Army invariant of the data model). -/
abbrev armyWF (army : Army) : Prop :=
  (keysOf army).Nodup ∧ ∀ p ∈ army, 0 < p.2

/-- Both sides' penetrating-hit sets for one round. -/
structure RoundKills where
  a_kills : List (String × Int)
  b_kills : List (String × Int)
  sOut : RngState
deriving DecidableEq

/-- Stage one of the spec's round (§4.5): both sides' penetrating-hit sets,
computed from each army's state as it stood before this round's casualties —
A's hit generation, distribution into B and defense resolution, then the
same three for B into A, in that randomness order. -/
def round_kill_sets (A B : Army) (s : RngState) : RoundKills :=
  let (a_hits, s1) := attacks_to_hits A s
  let (a_assign, s2) := distribute_hits_across_defender B a_hits s1
  let (a_kills, s3) := defense_resolution a_assign s2
  let (b_hits, s4) := attacks_to_hits B s3
  let (b_assign, s5) := distribute_hits_across_defender A b_hits s4
  let (b_kills, s6) := defense_resolution b_assign s5
  { a_kills := a_kills, b_kills := b_kills, sOut := s6 }

/-- Unfolding lemma for `findA` on a cons cell. -/
lemma findA_cons {α : Type} (k : String) (v : α) (l : List (String × α)) (t : String) :
    findA ((k, v) :: l) t = if k = t then some v else findA l t := rfl

lemma keysOf_nil {α : Type} : keysOf ([] : List (String × α)) = [] := rfl

lemma keysOf_cons {α : Type} (p : String × α) (l : List (String × α)) :
    keysOf (p :: l) = p.1 :: keysOf l := rfl

lemma findA_eq_none {α : Type} (l : List (String × α)) (t : String) :
    findA l t = none ↔ t ∉ keysOf l := by
  induction l with
  | nil => simp [findA, keysOf_nil]
  | cons p rest ih =>
    obtain ⟨k, v⟩ := p
    rw [findA_cons, keysOf_cons]
    by_cases h : k = t
    · subst h
      simp
    · simp only [if_neg h, ih, List.mem_cons]
      constructor
      · rintro hn (rfl | hm)
        · exact h rfl
        · exact hn hm
      · intro hn hm
        exact hn (Or.inr hm)

lemma findA_mem {α : Type} {l : List (String × α)} {t : String} {v : α}
    (h : findA l t = some v) : (t, v) ∈ l := by
  induction l with
  | nil => simp [findA] at h
  | cons p rest ih =>
    obtain ⟨k, w⟩ := p
    rw [findA_cons] at h
    by_cases hk : k = t
    · subst hk
      rw [if_pos rfl] at h
      cases h
      exact List.mem_cons_self _ _
    · rw [if_neg hk] at h
      exact List.mem_cons_of_mem _ (ih h)

lemma countOf_nil (t : String) : countOf [] t = 0 := rfl

lemma countOf_cons (k : String) (v : Int) (l : Army) (t : String) :
    countOf ((k, v) :: l) t = if k = t then v else countOf l t := by
  rw [countOf, findA_cons]
  split <;> rfl

lemma countOf_eq_zero_of_not_mem {l : Army} {t : String} (h : t ∉ keysOf l) :
    countOf l t = 0 := by
  rw [countOf, (findA_eq_none l t).mpr h]
  rfl

lemma countOf_nonneg {a : Army} (h : ∀ p ∈ a, 0 < p.2) (t : String) : 0 ≤ countOf a t := by
  rw [countOf]
  cases hf : findA a t with
  | none => exact le_refl 0
  | some v => exact le_of_lt (h _ (findA_mem hf))

lemma countOf_pos_iff {a : Army} (h : ∀ p ∈ a, 0 < p.2) (t : String) :
    0 < countOf a t ↔ t ∈ keysOf a := by
  constructor
  · intro hpos
    by_contra hm
    rw [countOf_eq_zero_of_not_mem hm] at hpos
    exact lt_irrefl 0 hpos
  · intro hm
    rw [countOf]
    cases hf : findA a t with
    | none => exact absurd hm ((findA_eq_none a t).mp hf)
    | some v => exact h _ (findA_mem hf)

lemma findA_dinsert_self {α : Type} (l : List (String × α)) (t : String) (v : α) :
    findA (dinsert l t v) t = some v := by
  induction l with
  | nil => simp [dinsert, findA]
  | cons p rest ih =>
    obtain ⟨k, w⟩ := p
    by_cases h : k = t
    · simp [dinsert, h, findA]
    · simp [dinsert, h, findA_cons, ih]

lemma findA_dinsert_ne {α : Type} (l : List (String × α)) (t : String) (v : α)
    {t' : String} (h : t' ≠ t) : findA (dinsert l t v) t' = findA l t' := by
  have h' : ¬t = t' := Ne.symm h
  induction l with
  | nil => simp [dinsert, findA, h']
  | cons p rest ih =>
    obtain ⟨k, w⟩ := p
    by_cases hk : k = t
    · subst hk
      simp [dinsert, findA_cons, h']
    · simp [dinsert, hk, findA_cons, ih]

lemma mem_dinsert {α : Type} {l : List (String × α)} {t : String} {v : α}
    {p : String × α} (h : p ∈ dinsert l t v) : p = (t, v) ∨ p ∈ l := by
  induction l with
  | nil => simpa [dinsert] using h
  | cons q rest ih =>
    obtain ⟨k, w⟩ := q
    by_cases hk : k = t
    · simp only [dinsert, if_pos hk, List.mem_cons] at h
      rcases h with h | h
      · exact Or.inl h
      · exact Or.inr (List.mem_cons_of_mem _ h)
    · simp only [dinsert, if_neg hk, List.mem_cons] at h
      rcases h with h | h
      · exact Or.inr (by simp [h])
      · rcases ih h with h' | h'
        · exact Or.inl h'
        · exact Or.inr (List.mem_cons_of_mem _ h')

lemma keysOf_dinsert_mem {α : Type} {l : List (String × α)} {t : String}
    (h : t ∈ keysOf l) (v : α) : keysOf (dinsert l t v) = keysOf l := by
  induction l with
  | nil => simp [keysOf_nil] at h
  | cons p rest ih =>
    obtain ⟨k, w⟩ := p
    by_cases hk : k = t
    · simp [dinsert, hk, keysOf_cons]
    · rw [keysOf_cons, List.mem_cons] at h
      rcases h with h | h
      · exact absurd h.symm hk
      · simp [dinsert, hk, keysOf_cons, ih h]

lemma dinsert_eq_append {α : Type} {l : List (String × α)} {t : String}
    (h : t ∉ keysOf l) (v : α) : dinsert l t v = l ++ [(t, v)] := by
  induction l with
  | nil => simp [dinsert]
  | cons p rest ih =>
    obtain ⟨k, w⟩ := p
    rw [keysOf_cons, List.mem_cons] at h
    push_neg at h
    simp only [dinsert]
    rw [if_neg (Ne.symm h.1), List.cons_append, ih h.2]

lemma nodup_keysOf_dinsert {α : Type} {l : List (String × α)}
    (h : (keysOf l).Nodup) (t : String) (v : α) : (keysOf (dinsert l t v)).Nodup := by
  by_cases hm : t ∈ keysOf l
  · rw [keysOf_dinsert_mem hm]
    exact h
  · rw [dinsert_eq_append hm]
    have : keysOf (l ++ [(t, v)]) = keysOf l ++ [t] := by simp [keysOf]
    rw [this, List.nodup_append]
    exact ⟨h, List.nodup_singleton t, by simpa using hm⟩

lemma mem_removeKey {α : Type} {l : List (String × α)} {t : String}
    {p : String × α} (h : p ∈ removeKey l t) : p ∈ l := by
  induction l with
  | nil => simpa [removeKey] using h
  | cons q rest ih =>
    obtain ⟨k, w⟩ := q
    by_cases hk : k = t
    · simp only [removeKey, if_pos hk] at h
      exact List.mem_cons_of_mem _ h
    · simp only [removeKey, if_neg hk, List.mem_cons] at h
      rcases h with h | h
      · simp [h]
      · exact List.mem_cons_of_mem _ (ih h)

lemma mem_keysOf_removeKey {α : Type} {l : List (String × α)} {t t' : String}
    (h : t' ∈ keysOf (removeKey l t)) : t' ∈ keysOf l := by
  rw [keysOf, List.mem_map] at h
  obtain ⟨p, hp, he⟩ := h
  rw [keysOf, List.mem_map]
  exact ⟨p, mem_removeKey hp, he⟩

lemma findA_removeKey_ne {α : Type} (l : List (String × α)) (t : String)
    {t' : String} (h : t' ≠ t) : findA (removeKey l t) t' = findA l t' := by
  have h' : ¬t = t' := Ne.symm h
  induction l with
  | nil => simp [removeKey]
  | cons p rest ih =>
    obtain ⟨k, w⟩ := p
    by_cases hk : k = t
    · subst hk
      simp [removeKey, findA_cons, h']
    · simp [removeKey, hk, findA_cons, ih]

lemma findA_removeKey_self {α : Type} {l : List (String × α)}
    (h : (keysOf l).Nodup) (t : String) : findA (removeKey l t) t = none := by
  induction l with
  | nil => simp [removeKey, findA]
  | cons p rest ih =>
    obtain ⟨k, w⟩ := p
    rw [keysOf_cons, List.nodup_cons] at h
    by_cases hk : k = t
    · subst hk
      rw [removeKey, if_pos rfl, findA_eq_none]
      exact h.1
    · rw [removeKey, if_neg hk, findA_cons, if_neg hk]
      exact ih h.2

lemma nodup_keysOf_removeKey {α : Type} {l : List (String × α)}
    (h : (keysOf l).Nodup) (t : String) : (keysOf (removeKey l t)).Nodup := by
  induction l with
  | nil => simpa [removeKey] using h
  | cons p rest ih =>
    obtain ⟨k, w⟩ := p
    rw [keysOf_cons, List.nodup_cons] at h
    by_cases hk : k = t
    · rw [removeKey, if_pos hk]
      exact h.2
    · rw [removeKey, if_neg hk, keysOf_cons, List.nodup_cons]
      exact ⟨fun hm => h.1 (mem_keysOf_removeKey hm), ih h.2⟩

lemma armyWF_dinsert {a : Army} (h : armyWF a) {t : String} {v : Int} (hv : 0 < v) :
    armyWF (dinsert a t v) := by
  refine ⟨nodup_keysOf_dinsert h.1 t v, fun p hp => ?_⟩
  rcases mem_dinsert hp with rfl | hp'
  · exact hv
  · exact h.2 _ hp'

lemma armyWF_removeKey {a : Army} (h : armyWF a) (t : String) :
    armyWF (removeKey a t) := by
  exact ⟨nodup_keysOf_removeKey h.1 t, fun p hp => h.2 _ (mem_removeKey hp)⟩

lemma countOf_dinsert_self (l : Army) (t : String) (v : Int) :
    countOf (dinsert l t v) t = v := by
  rw [countOf, findA_dinsert_self]
  rfl

lemma countOf_dinsert_ne (l : Army) (t : String) (v : Int) {t' : String}
    (h : t' ≠ t) : countOf (dinsert l t v) t' = countOf l t' := by
  rw [countOf, findA_dinsert_ne l t v h, countOf]

lemma countOf_removeKey_self {l : Army} (h : (keysOf l).Nodup) (t : String) :
    countOf (removeKey l t) t = 0 := by
  rw [countOf, findA_removeKey_self h]
  rfl

lemma countOf_removeKey_ne (l : Army) (t : String) {t' : String} (h : t' ≠ t) :
    countOf (removeKey l t) t' = countOf l t' := by
  rw [countOf, findA_removeKey_ne l t h, countOf]

lemma mem_removeKey_ne {α : Type} {l : List (String × α)} (h : (keysOf l).Nodup)
    {t : String} {p : String × α} (hp : p ∈ removeKey l t) : p.1 ≠ t ∧ p ∈ l := by
  induction l with
  | nil => simp [removeKey] at hp
  | cons q rest ih =>
    obtain ⟨k, w⟩ := q
    rw [keysOf_cons, List.nodup_cons] at h
    by_cases hk : k = t
    · subst hk
      simp [removeKey] at hp
      have hmem : p.1 ∈ keysOf rest := List.mem_map_of_mem Prod.fst hp
      refine ⟨fun he => ?_, List.mem_cons_of_mem _ hp⟩
      rw [he] at hmem
      exact h.1 hmem
    · simp only [removeKey, if_neg hk, List.mem_cons] at hp
      rcases hp with rfl | hp
      · exact ⟨hk, List.mem_cons_self _ _⟩
      · obtain ⟨h1, h2⟩ := ih h.2 hp
        exact ⟨h1, List.mem_cons_of_mem _ h2⟩

lemma kill_step_count_self {army : Army} (hN : (keysOf army).Nodup)
    (u : String) (k : Int) :
    countOf (kill_step army u k) u = countOf army u - min k (countOf army u) := by
  simp only [kill_step]
  by_cases h : countOf army u - min k (countOf army u) ≤ 0
  · rw [if_pos h, countOf_removeKey_self (nodup_keysOf_dinsert hN u _)]
    have := min_le_right k (countOf army u)
    omega
  · rw [if_neg h, countOf_dinsert_self]

lemma kill_step_count_ne {army : Army} {u t : String} (h : t ≠ u) (k : Int) :
    countOf (kill_step army u k) t = countOf army t := by
  simp only [kill_step]
  by_cases hc : countOf army u - min k (countOf army u) ≤ 0
  · rw [if_pos hc, countOf_removeKey_ne _ _ h, countOf_dinsert_ne _ _ _ h]
  · rw [if_neg hc, countOf_dinsert_ne _ _ _ h]

lemma kill_step_WF {army : Army} (hA : armyWF army) (u : String) (k : Int) :
    armyWF (kill_step army u k) := by
  simp only [kill_step]
  by_cases h : countOf army u - min k (countOf army u) ≤ 0
  · rw [if_pos h]
    refine ⟨nodup_keysOf_removeKey (nodup_keysOf_dinsert hA.1 u _) u, fun p hp => ?_⟩
    obtain ⟨hne, hp1⟩ := mem_removeKey_ne (nodup_keysOf_dinsert hA.1 u _) hp
    rcases mem_dinsert hp1 with rfl | hp2
    · exact absurd rfl hne
    · exact hA.2 _ hp2
  · rw [if_neg h]
    exact armyWF_dinsert hA (by omega)

/-- Claim C4: for every well-formed army and every nominal-kills dict (unique
keys, non-negative counts) and every category, the applied casualties equal
the minimum of the nominal kills and the pre-application count, the
post-application count is the pre-application count minus the applied
casualties, and a category remains in the army exactly when its remaining
count is positive (one that reaches zero is removed entirely). -/
theorem apply_kills_spec (kills : List (String × Int)) : ∀ (army : Army),
    armyWF army → (keysOf kills).Nodup → (∀ p ∈ kills, 0 ≤ p.2) → ∀ t : String,
    countOf (apply_kills army kills).2 t = min (countOf kills t) (countOf army t)
    ∧ countOf (apply_kills army kills).1 t
        = countOf army t - min (countOf kills t) (countOf army t)
    ∧ (t ∈ keysOf (apply_kills army kills).1
        ↔ 0 < countOf army t - min (countOf kills t) (countOf army t)) := by
  induction kills with
  | nil =>
    intro army hA _ _ t
    have hnn := countOf_nonneg hA.2 t
    simp only [apply_kills, countOf_nil]
    refine ⟨by omega, by omega, ?_⟩
    rw [← countOf_pos_iff hA.2 t]
    omega
  | cons head rest ih =>
    intro army hA hN hK t
    obtain ⟨u, k⟩ := head
    rw [keysOf_cons, List.nodup_cons] at hN
    have hk0 : (0 : Int) ≤ k := hK (u, k) (List.mem_cons_self _ _)
    have hKrest : ∀ p ∈ rest, (0 : Int) ≤ p.2 := fun p hp => hK p (List.mem_cons_of_mem _ hp)
    have hrest_u : countOf rest u = 0 := countOf_eq_zero_of_not_mem hN.1
    simp only [apply_kills]
    by_cases hcase : k ≤ 0
    · rw [if_pos hcase]
      obtain ⟨ih1, ih2, ih3⟩ := ih army hA hN.2 hKrest t
      by_cases ht : u = t
      · subst ht
        rw [countOf_cons, if_pos rfl]
        rw [hrest_u] at ih1 ih2 ih3
        have hk : k = 0 := le_antisymm hcase hk0
        subst hk
        exact ⟨ih1, ih2, by rw [ih3]⟩
      · rw [countOf_cons, if_neg ht]
        exact ⟨ih1, ih2, ih3⟩
    · rw [if_neg hcase]
      have havnn : 0 ≤ countOf army u := countOf_nonneg hA.2 u
      by_cases hav : countOf army u ≤ 0
      · rw [if_pos hav]
        have hav0 : countOf army u = 0 := le_antisymm hav havnn
        obtain ⟨ih1, ih2, ih3⟩ := ih army hA hN.2 hKrest t
        by_cases ht : u = t
        · subst ht
          rw [countOf_cons, if_pos rfl]
          rw [hrest_u, hav0] at ih1 ih2 ih3
          rw [hav0]
          refine ⟨by omega, by omega, ?_⟩
          rw [ih3]
          omega
        · rw [countOf_cons, if_neg ht]
          exact ⟨ih1, ih2, ih3⟩
      · rw [if_neg hav]
        dsimp only
        obtain ⟨ih1, ih2, ih3⟩ := ih (kill_step army u k) (kill_step_WF hA u k) hN.2 hKrest t
        have hmle := min_le_right k (countOf army u)
        by_cases ht : u = t
        · subst ht
          rw [countOf_cons, if_pos rfl, countOf_cons, if_pos rfl]
          rw [hrest_u, kill_step_count_self hA.1 u k] at ih1 ih2 ih3
          refine ⟨by omega, by omega, ?_⟩
          rw [ih3]
          omega
        · rw [countOf_cons, if_neg ht, countOf_cons, if_neg ht]
          rw [kill_step_count_ne (fun he => ht he.symm) k] at ih1 ih2 ih3
          exact ⟨ih1, ih2, ih3⟩

lemma distribute_pos (defender : Army) (total_hits : Int) (s : RngState) :
    ∀ p ∈ (distribute_hits_across_defender defender total_hits s).1, 0 < p.2 := by
  intro p hp
  simp only [distribute_hits_across_defender] at hp
  by_cases hg : alive_types defender = [] ∨ total_hits ≤ 0
  · rw [if_pos hg] at hp
    simp at hp
  · rw [if_neg hg] at hp
    dsimp only at hp
    rw [List.mem_filter] at hp
    simpa using hp.2

lemma apply_kills_pos (kills : List (String × Int)) : ∀ army : Army,
    ∀ p ∈ (apply_kills army kills).2, 0 < p.2 ∧ 0 < countOf army p.1 := by
  induction kills with
  | nil =>
    intro army p hp
    simp [apply_kills] at hp
  | cons head rest ih =>
    intro army p hp
    obtain ⟨u, k⟩ := head
    simp only [apply_kills] at hp
    by_cases hcase : k ≤ 0
    · rw [if_pos hcase] at hp
      exact ih army p hp
    · rw [if_neg hcase] at hp
      by_cases hav : countOf army u ≤ 0
      · rw [if_pos hav] at hp
        exact ih army p hp
      · rw [if_neg hav] at hp
        dsimp only at hp
        rw [List.mem_cons] at hp
        rcases hp with rfl | hp
        · exact ⟨by dsimp only; omega, by dsimp only; omega⟩
        · obtain ⟨h1, h2⟩ := ih (kill_step army u k) p hp
          refine ⟨h1, ?_⟩
          by_cases ht : p.1 = u
          · rw [ht]
            omega
          · rw [kill_step_count_ne ht k] at h2
            exact h2

/-- Claim C10: the hit distributor's assignment and the casualty applier's
actual-casualties dict contain only strictly positive values; moreover every
category the casualty applier reports was present in the army with positive
count when the kills arrived (absent or exhausted categories are omitted
rather than reported with value 0). -/
theorem distributor_and_applier_entries_positive (defender : Army) (total_hits : Int)
    (s : RngState) (army : Army) (kills : List (String × Int)) :
    (∀ p ∈ (distribute_hits_across_defender defender total_hits s).1, 0 < p.2)
    ∧ (∀ p ∈ (apply_kills army kills).2, 0 < p.2 ∧ 0 < countOf army p.1) :=
  ⟨distribute_pos defender total_hits s, apply_kills_pos kills army⟩

lemma rawBinomial_bounds (s : RngState) (n : Int) (p : Rat) (hn : 0 ≤ n) :
    0 ≤ (rawBinomial s n p).1 ∧ (rawBinomial s n p).1 ≤ n := by
  have hfst : (rawBinomial s n p).1
      = if 1 ≤ p then n
        else (((((rngNext s).1 + p.num.natAbs + p.den) % (n.toNat + 1) : Nat)) : Int) := rfl
  rw [hfst]
  split
  · exact ⟨hn, le_refl n⟩
  · have hm : ((rngNext s).1 + p.num.natAbs + p.den) % (n.toNat + 1) < n.toNat + 1 :=
      Nat.mod_lt _ (Nat.succ_pos _)
    omega

lemma rawMultinomial_length (probs : List Rat) : ∀ (s : RngState) (n : Int),
    ((rawMultinomial s n probs).1).length = probs.length := by
  induction probs with
  | nil => intro s n; rfl
  | cons p rest ih =>
    intro s n
    cases rest with
    | nil => rfl
    | cons q rest' =>
      simp only [rawMultinomial, List.length_cons]
      rw [ih]
      rfl

lemma rawMultinomial_sum (probs : List Rat) : ∀ (s : RngState) (n : Int), probs ≠ [] →
    ((rawMultinomial s n probs).1).sum = n := by
  induction probs with
  | nil => intro s n h; exact absurd rfl h
  | cons p rest ih =>
    intro s n _
    cases rest with
    | nil => simp [rawMultinomial]
    | cons q rest' =>
      simp only [rawMultinomial, List.sum_cons]
      rw [ih _ _ (by simp)]
      omega

lemma rawMultinomial_nonneg (probs : List Rat) : ∀ (s : RngState) (n : Int), 0 ≤ n →
    ∀ x ∈ (rawMultinomial s n probs).1, 0 ≤ x := by
  induction probs with
  | nil => intro s n _ x hx; simp [rawMultinomial] at hx
  | cons p rest ih =>
    intro s n hn x hx
    cases rest with
    | nil =>
      simp only [rawMultinomial, List.mem_singleton] at hx
      omega
    | cons q rest' =>
      obtain ⟨hb0, hbn⟩ := rawBinomial_bounds s n p hn
      simp only [rawMultinomial, List.mem_cons] at hx
      rcases hx with rfl | hx
      · exact hb0
      · exact ih _ _ (by omega) x hx

lemma multinomial_rng_spec (s : RngState) (n : Int) (probs : List Rat)
    (hn : 0 < n) (hpos : 0 < probs.sum) (hne : probs ≠ []) :
    (multinomial_rng s n probs).1.length = probs.length
    ∧ (multinomial_rng s n probs).1.sum = n
    ∧ ∀ x ∈ (multinomial_rng s n probs).1, 0 ≤ x := by
  have hmapne : probs.map (fun p => p / probs.sum) ≠ [] := by
    simpa using hne
  simp only [multinomial_rng]
  rw [if_neg (by omega), if_neg (not_le.mpr hpos)]
  refine ⟨?_, ?_, ?_⟩
  · rw [rawMultinomial_length, List.length_map]
  · exact rawMultinomial_sum _ _ _ hmapne
  · exact rawMultinomial_nonneg _ _ _ (le_of_lt hn)

lemma alive_types_eq {a : Army} (h : ∀ p ∈ a, 0 < p.2) : alive_types a = keysOf a := by
  simp only [alive_types, keysOf]
  rw [List.filter_eq_self.mpr (fun p hp => by simpa using h p hp)]

lemma army_size_pos {a : Army} (h : ∀ p ∈ a, 0 < p.2) (hne : a ≠ []) :
    0 < army_size a := by
  rw [army_size]
  refine List.sum_pos _ (fun x hx => ?_) (by simpa using hne)
  rw [List.mem_map] at hx
  obtain ⟨p, hp, rfl⟩ := hx
  exact h p hp

lemma army_eq_nil_of_size_zero {a : Army} (hA : armyWF a) (h : army_size a = 0) :
    a = [] := by
  by_contra hne
  exact absurd h (ne_of_gt (army_size_pos hA.2 hne))

lemma filter_pos_map_snd_sum (l : List (String × Int)) (h : ∀ p ∈ l, 0 ≤ p.2) :
    (((l.filter fun p => p.2 > 0)).map Prod.snd).sum = (l.map Prod.snd).sum := by
  induction l with
  | nil => rfl
  | cons p rest ih =>
    rw [List.filter_cons]
    have hrest : ∀ q ∈ rest, 0 ≤ q.2 := fun q hq => h q (List.mem_cons_of_mem _ hq)
    by_cases hp : p.2 > 0
    · rw [if_pos (by simpa using hp)]
      simp only [List.map_cons, List.sum_cons]
      rw [ih hrest]
    · rw [if_neg (by simpa using hp)]
      have hz : p.2 = 0 := le_antisymm (not_lt.mp hp) (h p (List.mem_cons_self _ _))
      rw [List.map_cons, List.sum_cons, hz, zero_add, ih hrest]

/-- Claim C3: if the defending army (well-formed) has a category with
positive count and the total hits are positive, the hit assignment sums
exactly to the total hits and mentions only categories of the army; if the
total hits are non-positive or the army's total count is zero, the
assignment is empty and the randomness state is untouched. -/
theorem distribute_hits_spec (defender : Army) (total_hits : Int) (s : RngState)
    (hA : armyWF defender) :
    ((∃ p ∈ defender, 0 < p.2) → 0 < total_hits →
        (((distribute_hits_across_defender defender total_hits s).1.map Prod.snd).sum
            = total_hits
          ∧ ∀ p ∈ (distribute_hits_across_defender defender total_hits s).1,
              p.1 ∈ keysOf defender))
    ∧ (total_hits ≤ 0 ∨ army_size defender = 0 →
        distribute_hits_across_defender defender total_hits s = ([], s)) := by
  constructor
  · rintro ⟨q, hq, hqpos⟩ hth
    have hal : alive_types defender = keysOf defender := alive_types_eq hA.2
    have hne : defender ≠ [] := by
      rintro rfl
      simp at hq
    have halne : alive_types defender ≠ [] := by
      rw [hal]
      intro hk
      exact hne (List.map_eq_nil.mp hk)
    set counts := (alive_types defender).map
        (fun t => ((countOf defender t : Int) : Rat)) with hcounts
    have hcpos : ∀ x ∈ counts, 0 < x := by
      intro x hx
      rw [hcounts, List.mem_map] at hx
      obtain ⟨t, ht, rfl⟩ := hx
      rw [hal] at ht
      have hcp : 0 < countOf defender t := (countOf_pos_iff hA.2 t).mpr ht
      exact_mod_cast hcp
    have hcne : counts ≠ [] := by
      rw [hcounts]
      simpa using halne
    have hcsum : 0 < counts.sum := List.sum_pos _ hcpos hcne
    obtain ⟨hlen, hsum, hnn⟩ := multinomial_rng_spec s total_hits counts hth hcsum hcne
    have hguard : ¬(alive_types defender = [] ∨ total_hits ≤ 0) := by
      push_neg
      exact ⟨halne, by omega⟩
    have hunfold : distribute_hits_across_defender defender total_hits s
        = (((alive_types defender).zip (multinomial_rng s total_hits counts).1).filter
            (fun p => p.2 > 0), (multinomial_rng s total_hits counts).2) := by
      simp only [distribute_hits_across_defender]
      rw [if_neg hguard, ← hcounts]
    have hlenle : (multinomial_rng s total_hits counts).1.length
        ≤ (alive_types defender).length := by
      rw [hlen, hcounts, List.length_map]
    constructor
    · rw [hunfold]
      dsimp only
      have hzip_nonneg : ∀ p ∈ (alive_types defender).zip
          (multinomial_rng s total_hits counts).1, 0 ≤ (p : String × Int).2 := by
        intro p hp
        obtain ⟨t, x⟩ := p
        exact hnn x (List.mem_zip hp).2
      rw [filter_pos_map_snd_sum _ hzip_nonneg, List.map_snd_zip _ _ hlenle]
      exact hsum
    · rw [hunfold]
      dsimp only
      intro p hp
      rw [List.mem_filter] at hp
      obtain ⟨t, x⟩ := p
      have hmem := (List.mem_zip hp.1).1
      rw [hal] at hmem
      exact hmem
  · intro h
    rcases h with h | h
    · simp only [distribute_hits_across_defender]
      rw [if_pos (Or.inr h)]
    · have hnil : defender = [] := army_eq_nil_of_size_zero hA h
      subst hnil
      simp only [distribute_hits_across_defender]
      have hempty : alive_types ([] : Army) = [] := rfl
      rw [if_pos (Or.inl hempty)]

lemma make_army_go_ok (unit_defs : Catalog) (spec : List (String × Int)) :
    ∀ acc : Army, (keysOf spec).Nodup →
    (∀ p ∈ spec, 0 < p.2 → findA unit_defs p.1 ≠ none) →
    (∀ t ∈ keysOf spec, t ∉ keysOf acc) →
    make_army_go unit_defs acc spec
      = Except.ok (acc ++ spec.filter (fun p => 0 < p.2)) := by
  induction spec with
  | nil =>
    intro acc _ _ _
    simp [make_army_go]
  | cons head rest ih =>
    intro acc hN hka hdis
    obtain ⟨u, c⟩ := head
    rw [keysOf_cons, List.nodup_cons] at hN
    have hka' : ∀ p ∈ rest, 0 < p.2 → findA unit_defs p.1 ≠ none :=
      fun p hp => hka p (List.mem_cons_of_mem _ hp)
    simp only [make_army_go]
    by_cases hc : c ≤ 0
    · rw [if_pos hc]
      rw [ih acc hN.2 hka'
        (fun t ht => hdis t (by rw [keysOf_cons]; exact List.mem_cons_of_mem _ ht))]
      rw [List.filter_cons, if_neg (by simpa using not_lt.mpr hc)]
    · rw [if_neg hc]
      have hpos : 0 < c := not_le.mp hc
      have hsome := hka (u, c) (List.mem_cons_self _ _) hpos
      have hnotnone : ¬ ((findA unit_defs u).isNone = true) := by
        cases hf : findA unit_defs u with
        | none => exact absurd hf hsome
        | some v => simp
      rw [if_neg hnotnone]
      have humem : u ∉ keysOf acc :=
        hdis u (by rw [keysOf_cons]; exact List.mem_cons_self _ _)
      rw [dinsert_eq_append humem c]
      have hdis' : ∀ t ∈ keysOf rest, t ∉ keysOf (acc ++ [(u, c)]) := by
        intro t ht
        have h1 : t ∉ keysOf acc :=
          hdis t (by rw [keysOf_cons]; exact List.mem_cons_of_mem _ ht)
        have h2 : t ≠ u := fun he => hN.1 (he ▸ ht)
        simp only [keysOf, List.map_append, List.mem_append]
        push_neg
        constructor
        · exact h1
        · simp only [List.map_cons, List.map_nil, List.mem_singleton]
          exact h2
      rw [ih (acc ++ [(u, c)]) hN.2 hka' hdis']
      rw [List.filter_cons, if_pos (by simpa using hpos), List.append_assoc,
        List.singleton_append]
  
lemma make_army_go_error (unit_defs : Catalog) (spec : List (String × Int)) :
    ∀ acc : Army, (∃ p ∈ spec, 0 < p.2 ∧ findA unit_defs p.1 = none) →
    ∃ t, make_army_go unit_defs acc spec = Except.error ("Unknown unit type: " ++ t)
      ∧ findA unit_defs t = none := by
  induction spec with
  | nil =>
    intro acc h
    obtain ⟨p, hp, _⟩ := h
    simp at hp
  | cons head rest ih =>
    intro acc h
    obtain ⟨u, c⟩ := head
    simp only [make_army_go]
    by_cases hc : c ≤ 0
    · rw [if_pos hc]
      apply ih
      obtain ⟨p, hp, hpos, hnone⟩ := h
      rw [List.mem_cons] at hp
      rcases hp with rfl | hp
      · exact absurd hpos (by simpa using hc)
      · exact ⟨p, hp, hpos, hnone⟩
    · rw [if_neg hc]
      cases hf : findA unit_defs u with
      | none =>
        rw [if_pos (by simp [hf])]
        exact ⟨u, rfl, hf⟩
      | some v =>
        rw [if_neg (by simp [hf])]
        apply ih
        obtain ⟨p, hp, hpos, hnone⟩ := h
        rw [List.mem_cons] at hp
        rcases hp with rfl | hp
        · exact absurd hnone (by simp [hf])
        · exact ⟨p, hp, hpos, hnone⟩

/-- Claim C7: army construction drops non-positive counts; if some
positively-counted name is absent from the catalog the whole construction
fails with the unknown-unit-type error (no partial army); otherwise it
returns exactly the positively-counted entries of the specification. -/
theorem make_army_spec (spec : List (String × Int)) (unit_defs : Catalog)
    (hN : (keysOf spec).Nodup) :
    ((∀ p ∈ spec, 0 < p.2 → findA unit_defs p.1 ≠ none) →
        make_army spec unit_defs = Except.ok (spec.filter (fun p => 0 < p.2)))
    ∧ ((∃ p ∈ spec, 0 < p.2 ∧ findA unit_defs p.1 = none) →
        ∃ t, make_army spec unit_defs = Except.error ("Unknown unit type: " ++ t)
          ∧ findA unit_defs t = none) := by
  constructor
  · intro hall
    rw [make_army, make_army_go_ok unit_defs spec [] hN hall (by simp [keysOf_nil]),
      List.nil_append]
  · intro hex
    exact make_army_go_error unit_defs spec [] hex

/-- Claim C2: one loop iteration is simultaneous — both sides' penetrating-hit
sets equal the staged computation `round_kill_sets` from the armies as they
stood at the start of the round, and only then are both kill sets applied:
the post-round armies are `apply_kills` of the pre-round armies with those
pre-round kill sets, and the recorded actual casualties and final randomness
state agree with that staging. -/
theorem roundStep_simultaneous (A B : Army) (s : RngState) (idx : Nat) :
    (roundStep A B s idx).1 = (apply_kills A (round_kill_sets A B s).b_kills).1
    ∧ (roundStep A B s idx).2.1 = (apply_kills B (round_kill_sets A B s).a_kills).1
    ∧ (roundStep A B s idx).2.2.1.sideA.kills_after_defense
        = (round_kill_sets A B s).a_kills
    ∧ (roundStep A B s idx).2.2.1.sideB.kills_after_defense
        = (round_kill_sets A B s).b_kills
    ∧ (roundStep A B s idx).2.2.1.sideA.kills
        = (apply_kills B (round_kill_sets A B s).a_kills).2
    ∧ (roundStep A B s idx).2.2.1.sideB.kills
        = (apply_kills A (round_kill_sets A B s).b_kills).2
    ∧ (roundStep A B s idx).2.2.2 = (round_kill_sets A B s).sOut :=
  ⟨rfl, rfl, rfl, rfl, rfl, rfl, rfl⟩

lemma battle_loop_bound (fuel : Nat) : ∀ (A B : Army) (s : RngState)
    (idx max_rounds : Nat) (log : List RoundRecord),
    idx + fuel = max_rounds →
    idx ≤ (battle_loop fuel A B s idx max_rounds log).2.2.1
    ∧ (battle_loop fuel A B s idx max_rounds log).2.2.1 ≤ max_rounds
    ∧ (battle_loop fuel A B s idx max_rounds log).2.2.2.length
        = log.length + ((battle_loop fuel A B s idx max_rounds log).2.2.1 - idx)
    ∧ ¬(army_size (battle_loop fuel A B s idx max_rounds log).1 > 0
        ∧ army_size (battle_loop fuel A B s idx max_rounds log).2.1 > 0
        ∧ (battle_loop fuel A B s idx max_rounds log).2.2.1 < max_rounds) := by
  induction fuel with
  | zero =>
    intro A B s idx maxR log hfi
    simp only [battle_loop]
    refine ⟨le_refl idx, by omega, by omega, ?_⟩
    rintro ⟨_, _, hlt⟩
    omega
  | succ fuel ih =>
    intro A B s idx maxR log hfi
    simp only [battle_loop]
    by_cases hg : army_size A > 0 ∧ army_size B > 0 ∧ idx < maxR
    · rw [if_pos hg]
      obtain ⟨h1, h2, h3, h4⟩ := ih (roundStep A B s (idx + 1)).1
        (roundStep A B s (idx + 1)).2.1 (roundStep A B s (idx + 1)).2.2.2 (idx + 1) maxR
        (log ++ [(roundStep A B s (idx + 1)).2.2.1]) (by omega)
      rw [List.length_append] at h3
      refine ⟨by omega, h2, by simp at h3; omega, h4⟩
    · rw [if_neg hg]
      dsimp only
      exact ⟨le_refl idx, by omega, by omega, hg⟩

/-- Claim C5: `simulate_battle` terminates within the round bound — the
number of executed rounds (also the length of the round log) never exceeds
`max_rounds`, and at exit the loop guard has failed: one army's size is no
longer positive or the round index has reached the bound. -/
theorem simulate_battle_bound (army_a army_b : Army) (unit_defs : Catalog)
    (seed : Option Nat) (max_rounds : Nat) (entropy : Nat) :
    (simulate_battle army_a army_b unit_defs seed max_rounds entropy).summary.rounds
        ≤ max_rounds
    ∧ (simulate_battle army_a army_b unit_defs seed max_rounds entropy).rounds.length
        = (simulate_battle army_a army_b unit_defs seed max_rounds entropy).summary.rounds
    ∧ ¬(army_size (simulate_battle army_a army_b unit_defs seed max_rounds
            entropy).summary.final_A > 0
        ∧ army_size (simulate_battle army_a army_b unit_defs seed max_rounds
            entropy).summary.final_B > 0
        ∧ (simulate_battle army_a army_b unit_defs seed max_rounds
            entropy).summary.rounds < max_rounds) := by
  obtain ⟨h1, h2, h3, h4⟩ := battle_loop_bound max_rounds army_a army_b
    (default_rng seed entropy) 0 max_rounds [] (by omega)
  simp only [simulate_battle, battle_summary]
  exact ⟨h2, by simp at h3; omega, h4⟩

lemma classify_winner_iff (A B : Army) :
    (classify_winner A B = "A" ↔ army_size B = 0 ∧ 0 < army_size A)
    ∧ (classify_winner A B = "B" ↔ army_size A = 0 ∧ 0 < army_size B)
    ∧ (classify_winner A B = "Draw/MaxRounds" ↔
        ¬(army_size B = 0 ∧ 0 < army_size A) ∧ ¬(army_size A = 0 ∧ 0 < army_size B)) := by
  simp only [classify_winner]
  by_cases h1 : army_size A > 0 ∧ army_size B = 0
  · rw [if_pos h1]
    obtain ⟨ha, hb⟩ := h1
    exact ⟨⟨fun _ => ⟨hb, ha⟩, fun _ => rfl⟩,
      ⟨fun he => absurd he (by decide), fun hc => absurd hc.1 (by omega)⟩,
      ⟨fun he => absurd he (by decide), fun hc => absurd ⟨hb, ha⟩ hc.1⟩⟩
  · rw [if_neg h1]
    by_cases h2 : army_size B > 0 ∧ army_size A = 0
    · rw [if_pos h2]
      obtain ⟨hb, ha⟩ := h2
      exact ⟨⟨fun he => absurd he (by decide), fun hc => absurd hc.1 (by omega)⟩,
        ⟨fun _ => ⟨ha, hb⟩, fun _ => rfl⟩,
        ⟨fun he => absurd he (by decide), fun hc => absurd ⟨ha, hb⟩ hc.2⟩⟩
    · rw [if_neg h2]
      exact ⟨⟨fun he => absurd he (by decide), fun hc => absurd ⟨hc.2, hc.1⟩ h1⟩,
        ⟨fun he => absurd he (by decide), fun hc => absurd ⟨hc.2, hc.1⟩ h2⟩,
        ⟨fun _ => ⟨fun hc => h1 ⟨hc.2, hc.1⟩, fun hc => h2 ⟨hc.2, hc.1⟩⟩, fun _ => rfl⟩⟩

/-- Claim C6: the summary's winner is `"A"` iff side B's final total count
is 0 and side A's is positive, `"B"` symmetrically, and `"Draw/MaxRounds"`
in every other case. -/
theorem simulate_battle_winner (army_a army_b : Army) (unit_defs : Catalog)
    (seed : Option Nat) (max_rounds : Nat) (entropy : Nat) :
    ((simulate_battle army_a army_b unit_defs seed max_rounds entropy).summary.winner = "A"
      ↔ army_size (simulate_battle army_a army_b unit_defs seed max_rounds
            entropy).summary.final_B = 0
        ∧ 0 < army_size (simulate_battle army_a army_b unit_defs seed max_rounds
            entropy).summary.final_A)
    ∧ ((simulate_battle army_a army_b unit_defs seed max_rounds entropy).summary.winner = "B"
      ↔ army_size (simulate_battle army_a army_b unit_defs seed max_rounds
            entropy).summary.final_A = 0
        ∧ 0 < army_size (simulate_battle army_a army_b unit_defs seed max_rounds
            entropy).summary.final_B)
    ∧ ((simulate_battle army_a army_b unit_defs seed max_rounds
            entropy).summary.winner = "Draw/MaxRounds"
      ↔ ¬(army_size (simulate_battle army_a army_b unit_defs seed max_rounds
            entropy).summary.final_B = 0
          ∧ 0 < army_size (simulate_battle army_a army_b unit_defs seed max_rounds
              entropy).summary.final_A)
        ∧ ¬(army_size (simulate_battle army_a army_b unit_defs seed max_rounds
            entropy).summary.final_A = 0
          ∧ 0 < army_size (simulate_battle army_a army_b unit_defs seed max_rounds
              entropy).summary.final_B)) := by
  simp only [simulate_battle, battle_summary]
  exact classify_winner_iff _ _

/-- Claim C9: with a fixed seed, the run is fully deterministic — the result
(round log and summary alike) does not depend on the ambient entropy numpy
would use only for an absent seed, so two runs with identical armies,
catalog and seed produce identical reports. -/
theorem simulate_battle_deterministic (army_a army_b : Army) (unit_defs : Catalog)
    (s : Nat) (max_rounds : Nat) (entropy1 entropy2 : Nat) :
    simulate_battle army_a army_b unit_defs (some s) max_rounds entropy1
      = simulate_battle army_a army_b unit_defs (some s) max_rounds entropy2 := rfl

/-- Claim C1 (the code violates it): `simulate_battle` produces identical
reports for any two catalogs whatsoever — with the same armies, seed and
round bound — because `_attacks_to_hits` and `_defense_resolution` read the
module-global `default_units` and the `unit_defs` argument is never used. -/
theorem simulate_battle_ignores_catalog (army_a army_b : Army) (cat1 cat2 : Catalog)
    (seed : Option Nat) (max_rounds : Nat) (entropy : Nat) :
    simulate_battle army_a army_b cat1 seed max_rounds entropy
      = simulate_battle army_a army_b cat2 seed max_rounds entropy := rfl

lemma getD_set_ne {α : Type} (l : List α) : ∀ (j i : Nat) (v d : α), i ≠ j →
    (l.set j v).getD i d = l.getD i d := by
  induction l with
  | nil => intro j i v d _; rfl
  | cons x rest ih =>
    intro j i v d hne
    cases j with
    | zero =>
      cases i with
      | zero => exact absurd rfl hne
      | succ i' => rfl
    | succ j' =>
      cases i with
      | zero => rfl
      | succ i' => exact ih j' i' v d (fun h => hne (by rw [h]))

lemma getD_set_self {α : Type} (l : List α) : ∀ (i : Nat) (v d : α), i < l.length →
    (l.set i v).getD i d = v := by
  induction l with
  | nil => intro i v d h; simp at h
  | cons x rest ih =>
    intro i v d h
    cases i with
    | zero => rfl
    | succ i' => exact ih i' v d (by simpa using h)

lemma getD_append_left {α : Type} (l l' : List α) : ∀ (i : Nat) (d : α), i < l.length →
    (l ++ l').getD i d = l.getD i d := by
  induction l with
  | nil => intro i d h; simp at h
  | cons x rest ih =>
    intro i d h
    cases i with
    | zero => rfl
    | succ i' => exact ih i' d (by simpa using h)

lemma getD_append_pair {α : Type} (l : List α) (x y d : α) :
    (l ++ [x, y]).getD l.length d = x ∧ (l ++ [x, y]).getD (l.length + 1) d = y := by
  induction l with
  | nil => exact ⟨rfl, rfl⟩
  | cons a rest ih => exact ⟨ih.1, ih.2⟩

lemma battle_loop_ref_frame (fuel : Nat) : ∀ (store : Store) (ca cb : Nat) (s : RngState)
    (idx maxR : Nat) (log : List RoundRecord) (i : Nat) (d : Army), i ≠ ca → i ≠ cb →
    ((battle_loop_ref fuel store ca cb s idx maxR log).1).getD i d = store.getD i d := by
  induction fuel with
  | zero =>
    intro store ca cb s idx maxR log i d _ _
    rfl
  | succ fuel ih =>
    intro store ca cb s idx maxR log i d hca hcb
    simp only [battle_loop_ref]
    by_cases hg : army_size (store.getD ca []) > 0 ∧ army_size (store.getD cb []) > 0
        ∧ idx < maxR
    · rw [if_pos hg]
      rw [ih _ _ _ _ _ _ _ i d hca hcb]
      rw [getD_set_ne _ _ _ _ _ hcb, getD_set_ne _ _ _ _ _ hca]
    · rw [if_neg hg]

lemma battle_loop_ref_agrees (fuel : Nat) : ∀ (store : Store) (ca cb : Nat) (s : RngState)
    (idx maxR : Nat) (log : List RoundRecord),
    ca < store.length → cb < store.length → ca ≠ cb →
    (battle_loop_ref fuel store ca cb s idx maxR log).1.getD ca []
        = (battle_loop fuel (store.getD ca []) (store.getD cb []) s idx maxR log).1
    ∧ (battle_loop_ref fuel store ca cb s idx maxR log).1.getD cb []
        = (battle_loop fuel (store.getD ca []) (store.getD cb []) s idx maxR log).2.1
    ∧ (battle_loop_ref fuel store ca cb s idx maxR log).2.1
        = (battle_loop fuel (store.getD ca []) (store.getD cb []) s idx maxR log).2.2.1
    ∧ (battle_loop_ref fuel store ca cb s idx maxR log).2.2
        = (battle_loop fuel (store.getD ca []) (store.getD cb []) s idx maxR log).2.2.2 := by
  induction fuel with
  | zero =>
    intro store ca cb s idx maxR log _ _ _
    exact ⟨rfl, rfl, rfl, rfl⟩
  | succ fuel ih =>
    intro store ca cb s idx maxR log hca hcb hne
    simp only [battle_loop_ref, battle_loop]
    by_cases hg : army_size (store.getD ca []) > 0 ∧ army_size (store.getD cb []) > 0
        ∧ idx < maxR
    · rw [if_pos hg, if_pos hg]
      have hca' : ca < ((store.set ca (roundStep (store.getD ca []) (store.getD cb []) s
          (idx + 1)).1).set cb (roundStep (store.getD ca []) (store.getD cb []) s
          (idx + 1)).2.1).length := by
        rw [List.length_set, List.length_set]
        exact hca
      have hcb' : cb < ((store.set ca (roundStep (store.getD ca []) (store.getD cb []) s
          (idx + 1)).1).set cb (roundStep (store.getD ca []) (store.getD cb []) s
          (idx + 1)).2.1).length := by
        rw [List.length_set, List.length_set]
        exact hcb
      obtain ⟨g1, g2, g3, g4⟩ := ih ((store.set ca (roundStep (store.getD ca [])
          (store.getD cb []) s (idx + 1)).1).set cb (roundStep (store.getD ca [])
          (store.getD cb []) s (idx + 1)).2.1) ca cb
        (roundStep (store.getD ca []) (store.getD cb []) s (idx + 1)).2.2.2 (idx + 1) maxR
        (log ++ [(roundStep (store.getD ca []) (store.getD cb []) s (idx + 1)).2.2.1])
        hca' hcb' hne
      have e1 : ((store.set ca (roundStep (store.getD ca []) (store.getD cb []) s
          (idx + 1)).1).set cb (roundStep (store.getD ca []) (store.getD cb []) s
          (idx + 1)).2.1).getD ca []
          = (roundStep (store.getD ca []) (store.getD cb []) s (idx + 1)).1 := by
        rw [getD_set_ne _ _ _ _ _ hne]
        exact getD_set_self _ _ _ _ hca
      have e2 : ((store.set ca (roundStep (store.getD ca []) (store.getD cb []) s
          (idx + 1)).1).set cb (roundStep (store.getD ca []) (store.getD cb []) s
          (idx + 1)).2.1).getD cb []
          = (roundStep (store.getD ca []) (store.getD cb []) s (idx + 1)).2.1 :=
        getD_set_self _ _ _ _ (by rw [List.length_set]; exact hcb)
      rw [e1, e2] at g1 g2 g3 g4
      exact ⟨g1, g2, g3, g4⟩
    · rw [if_neg hg, if_neg hg]
      exact ⟨rfl, rfl, rfl, rfl⟩

/-- The heap-level simulation returns the same report as the pure one run on
the caller cells' contents: the private copies behave exactly like the
by-value armies. -/
lemma simulate_battle_ref_report (store : Store) (ra rb : Nat) (unit_defs : Catalog)
    (seed : Option Nat) (max_rounds : Nat) (entropy : Nat) :
    (simulate_battle_ref store ra rb unit_defs seed max_rounds entropy).2
      = simulate_battle (store.getD ra []) (store.getD rb []) unit_defs seed
          max_rounds entropy := by
  simp only [simulate_battle_ref, simulate_battle]
  have i1 := (getD_append_pair store (store.getD ra []) (store.getD rb []) []).1
  have i2 := (getD_append_pair store (store.getD ra []) (store.getD rb []) []).2
  have hlen : store.length < (store ++ [store.getD ra [], store.getD rb []]).length := by
    rw [List.length_append]
    simp
  have hlen2 : store.length + 1
      < (store ++ [store.getD ra [], store.getD rb []]).length := by
    rw [List.length_append]
    simp
  obtain ⟨g1, g2, g3, g4⟩ := battle_loop_ref_agrees max_rounds
    (store ++ [store.getD ra [], store.getD rb []]) store.length (store.length + 1)
    (default_rng seed entropy) 0 max_rounds [] hlen hlen2 (by omega)
  rw [i1, i2] at g1 g2 g3 g4
  rw [g1, g2, g3, g4]

/-- Claim C8: `simulate_battle` never mutates the caller's armies.  At the
heap level, the caller's army cells `ra` and `rb` hold the same mapping —
key for key and count for count — after the run as before it: the loop
mutates only the two freshly allocated private copies. -/
theorem simulate_battle_frame (store : Store) (ra rb : Nat) (unit_defs : Catalog)
    (seed : Option Nat) (max_rounds : Nat) (entropy : Nat)
    (ha : ra < store.length) (hb : rb < store.length) :
    ((simulate_battle_ref store ra rb unit_defs seed max_rounds entropy).1).getD ra []
        = store.getD ra []
    ∧ ((simulate_battle_ref store ra rb unit_defs seed max_rounds entropy).1).getD rb []
        = store.getD rb [] := by
  have hra1 : ra ≠ store.length := by omega
  have hra2 : ra ≠ store.length + 1 := by omega
  have hrb1 : rb ≠ store.length := by omega
  have hrb2 : rb ≠ store.length + 1 := by omega
  simp only [simulate_battle_ref]
  constructor
  · rw [battle_loop_ref_frame _ _ _ _ _ _ _ _ ra [] hra1 hra2]
    exact getD_append_left _ _ ra [] ha
  · rw [battle_loop_ref_frame _ _ _ _ _ _ _ _ rb [] hrb1 hrb2]
    exact getD_append_left _ _ rb [] hb

theorem distribute_hits_spec_witness :
    armyWF [("Peasants", 3)]
    ∧ ((((distribute_hits_across_defender [("Peasants", 3)] 2 0).1.map Prod.snd).sum = 2
      ∧ ∀ p ∈ (distribute_hits_across_defender [("Peasants", 3)] 2 0).1,
          p.1 ∈ keysOf [("Peasants", 3)])
    ∧ distribute_hits_across_defender [("Peasants", 3)] 0 5 = ([], 5)) := by
  refine ⟨by decide, ?_, ?_⟩
  · exact (distribute_hits_spec [("Peasants", 3)] 2 0 (by decide)).1
      ⟨("Peasants", 3), by decide, by decide⟩ (by decide)
  · exact (distribute_hits_spec [("Peasants", 3)] 0 5 (by decide)).2 (Or.inl (by decide))

theorem apply_kills_spec_witness :
    armyWF [("Swordsmen", 2)]
    ∧ (keysOf [("Swordsmen", 5)]).Nodup
    ∧ (∀ p ∈ ([("Swordsmen", 5)] : List (String × Int)), 0 ≤ p.2)
    ∧ apply_kills [("Swordsmen", 2)] [("Swordsmen", 5)] = ([], [("Swordsmen", 2)])
    ∧ (countOf (apply_kills [("Swordsmen", 2)] [("Swordsmen", 5)]).2 "Swordsmen"
        = min (countOf [("Swordsmen", 5)] "Swordsmen")
            (countOf [("Swordsmen", 2)] "Swordsmen")
      ∧ countOf (apply_kills [("Swordsmen", 2)] [("Swordsmen", 5)]).1 "Swordsmen"
          = countOf [("Swordsmen", 2)] "Swordsmen"
            - min (countOf [("Swordsmen", 5)] "Swordsmen")
                (countOf [("Swordsmen", 2)] "Swordsmen")
      ∧ ("Swordsmen" ∈ keysOf (apply_kills [("Swordsmen", 2)] [("Swordsmen", 5)]).1
          ↔ 0 < countOf [("Swordsmen", 2)] "Swordsmen"
            - min (countOf [("Swordsmen", 5)] "Swordsmen")
                (countOf [("Swordsmen", 2)] "Swordsmen"))) := by
  refine ⟨by decide, by decide, by decide, by decide, ?_⟩
  exact apply_kills_spec [("Swordsmen", 5)] [("Swordsmen", 2)] (by decide) (by decide)
    (by decide) "Swordsmen"

theorem make_army_spec_witness :
    (keysOf [("Peasants", 2), ("Bogus", 1)]).Nodup
    ∧ (∃ t, make_army [("Peasants", 2), ("Bogus", 1)] default_units
          = Except.error ("Unknown unit type: " ++ t) ∧ findA default_units t = none)
    ∧ make_army [("Peasants", 2), ("Swordsmen", 0)] default_units
        = Except.ok (([("Peasants", 2), ("Swordsmen", 0)] : List (String × Int)).filter
            (fun p => 0 < p.2)) := by
  refine ⟨by decide, ?_, ?_⟩
  · exact (make_army_spec [("Peasants", 2), ("Bogus", 1)] default_units (by decide)).2
      ⟨("Bogus", 1), by decide, by decide, by decide⟩
  · exact (make_army_spec [("Peasants", 2), ("Swordsmen", 0)] default_units (by decide)).1
      (by decide)

theorem simulate_battle_frame_witness :
    ((simulate_battle_ref [[("Peasants", 1)], [("Spearmen", 2)]] 0 1 default_units
        (some 7) 3 0).1).getD 0 []
      = [[("Peasants", 1)], [("Spearmen", 2)]].getD 0 []
    ∧ ((simulate_battle_ref [[("Peasants", 1)], [("Spearmen", 2)]] 0 1 default_units
        (some 7) 3 0).1).getD 1 []
      = [[("Peasants", 1)], [("Spearmen", 2)]].getD 1 [] :=
  simulate_battle_frame [[("Peasants", 1)], [("Spearmen", 2)]] 0 1 default_units
    (some 7) 3 0 (by decide) (by decide)
